import Mathlib

/-!
Verification development for the mini-browser (`browser.py`): a GUI shell that
rewrites user-typed "domain" addresses onto a fixed static host.  The pure
logic — input validation (a Python regular expression), input parsing,
the navigation interceptor, virtual-address synchronization, the not-found
heuristic and the address-bar handler — is embedded as executable Lean
functions over `String` / `List Char`, following the Python source line by
line.  Python-specific semantics that matter here and are modelled
faithfully:

* `re.match(pat, s)` with `pat` ending in `$`: `$` matches at the end of the
  string *or just before a single trailing newline*;
* `.` in a pattern matches any character except `'\n'`;
* `str.replace(old, "")` removes *every* (left-to-right, non-overlapping)
  occurrence of `old`, not only a leading one;
* `str.strip(chars)` removes leading and trailing characters only;
* string truthiness: the empty string is falsy.
-/

/-- `GITHUB_BASE` constant from the source (line 15): the static host. -/
def GITHUB_BASE : String := "https://datlittladucky.github.io/Websites/"

/-- `START_PAGE` constant from the source (line 16). -/
def START_PAGE : String := GITHUB_BASE ++ "start/index.html"

/-- Character class `[a-zA-Z0-9-]` of the validation pattern (line 22).
`Char.isAlpha` / `Char.isDigit` are exactly the ASCII ranges, matching
Python's case-sensitive character classes on `str`. -/
def isLabelChar (c : Char) : Bool := c.isAlpha || c.isDigit || c == '-'

/-- Character class `[a-zA-Z0-9\-_/]` of the validation pattern (line 22). -/
def isPathChar (c : Char) : Bool := isLabelChar c || c == '_' || c == '/'

/-- ASCII whitespace stripped by Python `str.strip()` (space, tab, newline,
carriage return, vertical tab, form feed).  Python also strips some rarer
Unicode space characters; no theorem below exercises those. -/
def isPySpace (c : Char) : Bool :=
  c == ' ' || c == '\t' || c == '\n' || c == '\r' || c == '\x0b' || c == '\x0c'

/-- Python `str.strip(set)`: drop a maximal run of matching characters from
both ends. -/
def stripWhile (p : Char → Bool) (s : List Char) : List Char :=
  ((s.dropWhile p).reverse.dropWhile p).reverse

/-- Python `str.strip("/")` (source lines 27, 108). -/
def pyStripSlash (s : List Char) : List Char := stripWhile (· == '/') s

/-- Python `str.strip()` (source line 233). -/
def pyStripSpace (s : List Char) : List Char := stripWhile isPySpace s

/-- Python `str.lower()` (source line 236); `Char.toLower` lowers exactly the
ASCII uppercase letters, which is all the special-case comparison needs. -/
def pyLower (s : List Char) : List Char := s.map Char.toLower

/-- Python `s.startswith(pre)` (source lines 46, 105). -/
def pyStartswith (s pre : String) : Bool := pre.data.isPrefixOf s.data

/-- Python `s.split(sep)` for a one-character separator: always returns a
non-empty list of (possibly empty) chunks. -/
def splitOnChar (sep : Char) : List Char → List (List Char)
  | [] => [[]]
  | c :: cs =>
    if c == sep then [] :: splitOnChar sep cs
    else
      match splitOnChar sep cs with
      | [] => [[c]]
      | h :: t => (c :: h) :: t

/-- Inverse of `splitOnChar`: rejoin chunks with the separator. -/
def unsplitChar (sep : Char) : List (List Char) → List Char
  | [] => []
  | [x] => x
  | x :: xs => x ++ sep :: unsplitChar sep xs

/-- Fuel-driven worker for `removeAll` (structural recursion on the fuel so
that everything stays kernel-computable). -/
def removeAllAux (pat : List Char) : Nat → List Char → List Char
  | _, [] => []
  | 0, s => s
  | fuel + 1, c :: cs =>
    if pat.isPrefixOf (c :: cs) && !pat.isEmpty then
      removeAllAux pat fuel (cs.drop (pat.length - 1))
    else
      c :: removeAllAux pat fuel cs

/-- Python `s.replace(pat, "")`: remove every occurrence of `pat`,
scanning left to right, non-overlapping (source lines 26, 106, 107). -/
def removeAll (pat s : List Char) : List Char := removeAllAux pat s.length s

/-- Leading-scheme stripper: the `(https?://)?` group of the validation
pattern (line 22) – at most one scheme, anchored at the start. -/
def stripScheme (s : List Char) : List Char :=
  if "http://".data.isPrefixOf s then s.drop 7
  else if "https://".data.isPrefixOf s then s.drop 8
  else s

/-- Host-component check of the validation pattern: every dot-separated
component is a non-empty run of `[a-zA-Z0-9-]`. -/
def labelsOk (comps : List (List Char)) : Bool :=
  comps.all fun l => !l.isEmpty && l.all isLabelChar

/-- Top-level-domain check of `([a-zA-Z0-9-]+\.)+(com|co\.uk|org)`: the
components must end in `com` or `org` (with at least one label before), or in
`co, uk` (again with at least one label before). -/
def tldOk (comps : List (List Char)) : Bool :=
  match comps.reverse with
  | [] => false
  | lastc :: rest =>
    ((lastc == "com".data || lastc == "org".data) && !rest.isEmpty) ||
    (lastc == "uk".data &&
      match rest with
      | [] => false
      | co :: rest2 => co == "co".data && !rest2.isEmpty)

/-- Full host check `([a-zA-Z0-9-]+\.)+(com|co\.uk|org)`. -/
def hostOk (h : List Char) : Bool :=
  labelsOk (splitOnChar '.' h) && tldOk (splitOnChar '.' h)

/-- Path check `(/[a-zA-Z0-9\-_/]*)?`: empty, or a slash followed by path
characters. -/
def pathOk : List Char → Bool
  | [] => true
  | c :: cs => c == '/' && cs.all isPathChar

/-- The body of the pattern at line 22 without the `$` anchor quirk:
`^(https?://)?([a-zA-Z0-9-]+\.)+(com|co\.uk|org)(/[a-zA-Z0-9\-_/]*)?$`.
Because no character class contains `/` except the path class, and no class
contains `:`, the regex language decomposes as: optional scheme, then the
host up to the first `/`, then the path from the first `/` on. -/
def matchesBody (s : List Char) : Bool :=
  let t := stripScheme s
  hostOk (t.takeWhile fun c => c != '/') && pathOk (t.dropWhile fun c => c != '/')

/-- `validate_input` (source lines 21–23): truthiness of
`re.match(pattern, s)`.  Python's `$` also matches just before a single
trailing newline, hence the second disjunct. -/
def validateL (s : List Char) : Bool :=
  matchesBody s || (s.getLast? == some '\n' && matchesBody s.dropLast)

/-- `validate_input` on `String`. -/
def validate_input (s : String) : Bool := validateL s.data

/-- Python `t.split("/", 1)` as a pair: the part before the first slash and
the part after it (empty when there is no slash); the separator belongs to
neither part. -/
def splitFirstSlash (t : List Char) : List Char × List Char :=
  (t.takeWhile fun c => c != '/',
   match t.dropWhile fun c => c != '/' with
   | [] => []
   | _ :: tail => tail)

/-- `parse_input` (source lines 25–32): remove every `http://` occurrence,
then every `https://` occurrence, strip surrounding slashes, split at the
first slash (`split("/", 1)`). -/
def parseL (s : List Char) : List Char × List Char :=
  splitFirstSlash (pyStripSlash (removeAll "https://".data (removeAll "http://".data s)))

/-- `parse_input` on `String`. -/
def parse_input (s : String) : String × String :=
  ((parseL s.data).1.asString, (parseL s.data).2.asString)

/-- The `new_url` computed at source lines 57–61 / 247–250. -/
def rewrittenTarget (domain subpath : String) : String :=
  if subpath ≠ "" then GITHUB_BASE ++ domain ++ "/" ++ subpath ++ ".html"
  else GITHUB_BASE ++ domain ++ "/index.html"

/-- The `virtual_url` computed at source lines 59–62 / 248–251. -/
def virtualAddress (domain subpath : String) : String :=
  if subpath ≠ "" then domain ++ "/" ++ subpath else domain

/-- Side effects of the interceptor, in program order. -/
inductive NavEffect
  | setVirtualUrl (v : String)
  | setUrl (u : String)
deriving DecidableEq, Repr

/-- Group 1 of `re.match(r"https?://(.+)", url)` (source line 50): the
pattern has no end anchor, `.` does not match a newline, and `+` needs at
least one character, so the group is the maximal newline-free run after the
scheme, defined when that run is non-empty. -/
def schemeRemainder (url : List Char) : Option (List Char) :=
  let group := fun (r : List Char) =>
    let g := r.takeWhile fun c => c != '\n'
    if g.isEmpty then none else some g
  if "http://".data.isPrefixOf url then group (url.drop 7)
  else if "https://".data.isPrefixOf url then group (url.drop 8)
  else none

/-- `CustomWebEnginePage.acceptNavigationRequest` (source lines 42–68),
as the ordered list of side effects it performs plus its return value
(`true` = allow the navigation). -/
def acceptNavigationRequest (url : String) : List NavEffect × Bool :=
  if pyStartswith url GITHUB_BASE then ([], true)
  else
    match schemeRemainder url.data with
    | some g =>
      if validateL g then
        let d := (parseL g).1.asString
        let p := (parseL g).2.asString
        ([NavEffect.setVirtualUrl (virtualAddress d p),
          NavEffect.setUrl (rewrittenTarget d p)], false)
      else ([], false)
    | none => ([], false)

/-- What the rendering engine currently displays: a loaded URL, or an
in-memory error document produced by `show_custom_404(message)`. -/
inductive Location
  | url (u : String)
  | errorDoc (message : String)
deriving DecidableEq, Repr

/-- `BrowserTab.sync_virtual_url` (source lines 103–109): only if the new
location starts with the host does it update `virtual_url`, removing every
occurrence of the host string, then every occurrence of `".html"`, then
surrounding slashes; otherwise `virtual_url` is left as it was. -/
def sync_virtual_url (virtualUrl : String) (u : String) : String :=
  if pyStartswith u GITHUB_BASE then
    (pyStripSlash (removeAll ".html".data (removeAll GITHUB_BASE.data u.data))).asString
  else virtualUrl

/-- Python `pat in s` substring test. -/
def hasSubstr (pat : List Char) : List Char → Bool
  | [] => pat.isEmpty
  | c :: cs => pat.isPrefixOf (c :: cs) || hasSubstr pat cs

/-- `BrowserTab.check_title_for_404` (source lines 120–122): `title` is the
JavaScript result (`none` models a null result); `if title and "404" in
title` replaces the content only for a non-empty title containing `"404"`. -/
def check_title_for_404 (title : Option String) (content : Location) : Location :=
  match title with
  | none => content
  | some t =>
    if !t.data.isEmpty && hasSubstr "404".data t.data then
      Location.errorDoc "Page not found"
    else content

/-- `BrowserTab.check_load_success` (source lines 111–118) composed with the
asynchronous title callback: failure shows the generic error document,
success queries the title and applies `check_title_for_404`. -/
def check_load_success (success : Bool) (title : Option String)
    (content : Location) : Location :=
  if !success then Location.errorDoc "Page failed to load"
  else check_title_for_404 title content

/-- Outcome of `MiniBrowser.load_page` (source lines 232–256). -/
inductive LoadPageResult
  | loadStart
  | invalid
  | load (target virtualUrl tabTitle : String)
deriving DecidableEq, Repr

/-- `MiniBrowser.load_page` (source lines 232–256): strip the entered text;
if its lowercase form is `"start"` or `"websites/start"`, load the start
page; else if it fails validation, show the "Invalid domain format" error
document; else parse it and load the rewritten target, setting the virtual
address and the tab title. -/
def load_page (text : String) : LoadPageResult :=
  let t := pyStripSpace text.data
  if pyLower t = "start".data ∨ pyLower t = "websites/start".data then
    LoadPageResult.loadStart
  else if validateL t then
    let d := (parseL t).1.asString
    let p := (parseL t).2.asString
    LoadPageResult.load (rewrittenTarget d p) (virtualAddress d p) d
  else LoadPageResult.invalid

/-- Per-view navigation state: the engine's displayed location and the
per-view `virtual_url` attribute (source line 86). -/
structure ViewState where
  location : Location
  virtualUrl : String
deriving DecidableEq, Repr

/-- Apply one interceptor side effect to the view. -/
def applyEffect (s : ViewState) : NavEffect → ViewState
  | NavEffect.setVirtualUrl v => { s with virtualUrl := v }
  | NavEffect.setUrl u => { s with location := Location.url u }

/-- One navigation request against the interceptor: its side effects run in
order; if it returns `true` the engine proceeds to load the requested URL. -/
def applyNav (u : String) (s : ViewState) : ViewState :=
  let r := acceptNavigationRequest u
  let s1 := r.1.foldl applyEffect s
  if r.2 then { s1 with location := Location.url u } else s1

/-- One address-bar submission (`load_page`) against the view. -/
def applySubmit (text : String) (s : ViewState) : ViewState :=
  match load_page text with
  | LoadPageResult.loadStart => { s with location := Location.url START_PAGE }
  | LoadPageResult.invalid =>
      { s with location := Location.errorDoc "Invalid domain format" }
  | LoadPageResult.load target v _ =>
      { location := Location.url target, virtualUrl := v }

/-- One load-finished event (error-document substitution path). -/
def applyFinish (success : Bool) (title : Option String) (s : ViewState) :
    ViewState :=
  { s with location := check_load_success success title s.location }

/-- A navigation step of a view, as enumerated by the specification:
an interceptor decision, an address-bar submission, or an error-document
substitution after a load finishes. -/
inductive NavStep : ViewState → ViewState → Prop
  | nav (u : String) (s : ViewState) : NavStep s (applyNav u s)
  | submit (text : String) (s : ViewState) : NavStep s (applySubmit text s)
  | finish (success : Bool) (title : Option String) (s : ViewState) :
      NavStep s (applyFinish success title s)

/-- A fresh tab loads the start page with an empty virtual address
(source lines 86, 214, 224–225). -/
def initialView : ViewState :=
  { location := Location.url START_PAGE, virtualUrl := "" }

/-- States a view can reach from its initial state via navigation steps. -/
inductive ReachableView : ViewState → Prop
  | init : ReachableView initialView
  | step {s t : ViewState} : ReachableView s → NavStep s t → ReachableView t

/-- The location invariant of the specification: the engine displays the
fixed start page, a page under the static host, or an in-memory error
document. -/
def LocationOk : Location → Prop
  | Location.errorDoc _ => True
  | Location.url u => u = START_PAGE ∨ pyStartswith u GITHUB_BASE = true

/-- Modelled from the spec: a host label — "alphanumeric-with-hyphen",
non-empty. -/
def LabelSpec (l : List Char) : Prop := l ≠ [] ∧ ∀ c ∈ l, isLabelChar c = true

instance decLabelSpec (l : List Char) : Decidable (LabelSpec l) :=
  decidable_of_iff (l ≠ [] ∧ ∀ c ∈ l, isLabelChar c = true) Iff.rfl

/-- Modelled from the spec: `tld ∈ {com, co.uk, org}`. -/
def TldSpec (t : List Char) : Prop :=
  t = "com".data ∨ t = "co.uk".data ∨ t = "org".data

instance decTldSpec (t : List Char) : Decidable (TldSpec t) :=
  decidable_of_iff (t = "com".data ∨ t = "co.uk".data ∨ t = "org".data) Iff.rfl

/-- Modelled from the spec: the optional `scheme://` part. -/
def SchemeSpec (x : List Char) : Prop :=
  x = [] ∨ x = "http://".data ∨ x = "https://".data

instance decSchemeSpec (x : List Char) : Decidable (SchemeSpec x) :=
  decidable_of_iff (x = [] ∨ x = "http://".data ∨ x = "https://".data) Iff.rfl

/-- Modelled from the spec: the optional path part — empty, or a slash
followed by characters restricted to alphanumerics, hyphen, underscore and
slash. -/
def PathSpec (x : List Char) : Prop :=
  x = [] ∨ ∃ r, x = '/' :: r ∧ ∀ c ∈ r, isPathChar c = true

/-- Host built from labels and a TLD: `label(.label)*.tld`. -/
def hostOf (labels : List (List Char)) (tld : List Char) : List Char :=
  (labels.map fun l => l ++ ['.']).flatten ++ tld

/-- Modelled from the spec (§4.1): the address grammar
`[scheme://]label(.label)+.tld[/path]*` — an optional scheme, one or more
dot-separated labels, a dot-joined TLD from the fixed set, an optional path. -/
def SpecGrammar (s : List Char) : Prop :=
  ∃ sch labels tld path,
    SchemeSpec sch ∧ labels ≠ [] ∧ (∀ l ∈ labels, LabelSpec l) ∧
    TldSpec tld ∧ PathSpec path ∧ s = sch ++ hostOf labels tld ++ path

/-- Modelled from the spec wording of C3: strip the host *prefix*, strip the
`.html` *suffix*, strip surrounding slashes. -/
def specSyncValue (u : String) : String :=
  let a := if pyStartswith u GITHUB_BASE then u.data.drop GITHUB_BASE.data.length
           else u.data
  let b := if ".html".data.isSuffixOf a then a.take (a.length - 5) else a
  (pyStripSlash b).asString

/-- Modelled from the spec wording of C5: strip only a *leading* scheme,
strip surrounding slashes, split at the first slash. -/
def parseSpecLeading (s : String) : String × String :=
  let dp := splitFirstSlash (pyStripSlash (stripScheme s.data))
  (dp.1.asString, dp.2.asString)

/-- Rejoin a parsed `(domain, subpath)` pair with a slash when the subpath is
non-empty (spec §8, round-trip property). -/
def rejoinL (dp : List Char × List Char) : List Char :=
  if dp.2 = [] then dp.1 else dp.1 ++ '/' :: dp.2

/-- Modelled from the spec: re-normalization — strip the scheme and the
surrounding slashes. -/
def normalizeL (s : List Char) : List Char := pyStripSlash (stripScheme s)

example : validate_input "example.com" = true := by decide
example : validate_input "example.com/foo/bar" = true := by decide
example : validate_input "example.net" = false := by decide
example : validate_input "" = false := by decide
example : validate_input "a.co.uk/x_y" = true := by decide
example : validate_input "co.uk" = false := by decide
example : validate_input "example.com\n" = true := by decide
example : parse_input "https://example.com/foo/bar" = ("example.com", "foo/bar") := by decide
example : parse_input "example.com//" = ("example.com", "") := by decide
example : load_page "example.com" =
    LoadPageResult.load "https://datlittladucky.github.io/Websites/example.com/index.html"
      "example.com" "example.com" := by decide
example : sync_virtual_url "x" "https://datlittladucky.github.io/Websites/example.com/index.html" = "example.com/index" := by decide
example : sync_virtual_url "x" "https://datlittladucky.github.io/Websites/example.com/foo/bar.html" = "example.com/foo/bar" := by decide

/-! ### Helper lemmas about `removeAll` -/

theorem removeAllAux_nil (pat : List Char) (f : Nat) : removeAllAux pat f [] = [] := by
  cases f <;> rfl

theorem removeAllAux_congr (pat : List Char) :
    ∀ (f1 f2 : Nat) (s : List Char), s.length ≤ f1 → s.length ≤ f2 →
      removeAllAux pat f1 s = removeAllAux pat f2 s := by
  intro f1
  induction f1 with
  | zero =>
    intro f2 s h1 _
    have hs : s = [] := List.eq_nil_of_length_eq_zero (Nat.le_zero.mp h1)
    subst hs
    rw [removeAllAux_nil, removeAllAux_nil]
  | succ f ih =>
    intro f2 s h1 h2
    cases s with
    | nil => rw [removeAllAux_nil, removeAllAux_nil]
    | cons c cs =>
      cases f2 with
      | zero => simp at h2
      | succ f2 =>
        simp only [removeAllAux]
        by_cases hc : (pat.isPrefixOf (c :: cs) && !pat.isEmpty) = true
        · rw [if_pos hc, if_pos hc]
          apply ih
          · have := List.length_drop (pat.length - 1) cs
            simp only [List.length_cons] at h1
            omega
          · have := List.length_drop (pat.length - 1) cs
            simp only [List.length_cons] at h2
            omega
        · rw [if_neg hc, if_neg hc]
          simp only [List.length_cons] at h1 h2
          rw [ih f2 cs (by omega) (by omega)]

theorem removeAll_nil (pat : List Char) : removeAll pat [] = [] := rfl

theorem removeAll_cons (pat : List Char) (c : Char) (cs : List Char) :
    removeAll pat (c :: cs) =
      if pat.isPrefixOf (c :: cs) && !pat.isEmpty then
        removeAll pat (cs.drop (pat.length - 1))
      else c :: removeAll pat cs := by
  show removeAllAux pat (c :: cs).length (c :: cs) = _
  simp only [List.length_cons, removeAllAux]
  by_cases hc : (pat.isPrefixOf (c :: cs) && !pat.isEmpty) = true
  · rw [if_pos hc, if_pos hc]
    apply removeAllAux_congr
    · have := List.length_drop (pat.length - 1) cs
      omega
    · exact Nat.le_refl _
  · rw [if_neg hc, if_neg hc]
    rfl

theorem removeAll_of_no_occ (pat : List Char) :
    ∀ s, (∀ suf, suf <:+ s → pat.isPrefixOf suf = false) → removeAll pat s = s := by
  intro s
  induction s with
  | nil => intro _; rfl
  | cons c cs ih =>
    intro h
    rw [removeAll_cons, h (c :: cs) (List.suffix_refl _)]
    rw [if_neg (by simp : ¬(false && !pat.isEmpty) = true)]
    rw [ih fun suf hs => h suf (hs.trans (List.suffix_cons c cs))]

theorem removeAll_of_not_mem (pat : List Char) (a : Char) (ha : a ∈ pat) :
    ∀ s, a ∉ s → removeAll pat s = s := by
  intro s hs
  apply removeAll_of_no_occ
  intro suf hsuf
  by_contra hb
  have hp : pat.isPrefixOf suf = true := by
    revert hb; cases pat.isPrefixOf suf <;> simp
  have hpre : pat <+: suf := List.isPrefixOf_iff_prefix.mp hp
  exact hs (hsuf.subset (hpre.subset ha))

theorem removeAll_append_self (pat : List Char) (hne : pat ≠ []) (rest : List Char) :
    removeAll pat (pat ++ rest) = removeAll pat rest := by
  cases pat with
  | nil => exact absurd rfl hne
  | cons p ps =>
    rw [List.cons_append, removeAll_cons]
    have h1 : (p :: ps).isPrefixOf (p :: (ps ++ rest)) = true :=
      List.isPrefixOf_iff_prefix.mpr (by rw [← List.cons_append]; exact List.prefix_append _ _)
    rw [h1]
    simp only [Bool.true_and, List.isEmpty_cons, Bool.not_false, if_true]
    congr 1
    simp only [List.length_cons, Nat.add_sub_cancel]
    exact List.drop_left ps rest

theorem take_min_eq {a rest pat z : List Char} (h : a ++ rest = pat ++ z) :
    a.take (min a.length pat.length) = pat.take (min a.length pat.length) := by
  have h1 : (a ++ rest).take (min a.length pat.length) = a.take (min a.length pat.length) :=
    List.take_append_of_le_length (Nat.min_le_left _ _)
  have h2 : (pat ++ z).take (min a.length pat.length) = pat.take (min a.length pat.length) :=
    List.take_append_of_le_length (Nat.min_le_right _ _)
  rw [← h1, h, h2]

theorem suffix_append_cases {suf b : List Char} :
    ∀ a, suf <:+ a ++ b → suf <:+ b ∨ ∃ a1, a1 <:+ a ∧ a1 ≠ [] ∧ suf = a1 ++ b := by
  intro a
  induction a with
  | nil => intro h; exact Or.inl (by simpa using h)
  | cons c a2 ih =>
    intro h
    rcases List.suffix_cons_iff.mp (by simpa using h) with h1 | h2
    · exact Or.inr ⟨c :: a2, List.suffix_refl _, by simp, by simpa using h1⟩
    · rcases ih h2 with h3 | ⟨a1, hs, hne, he⟩
      · exact Or.inl h3
      · exact Or.inr ⟨a1, hs.trans (List.suffix_cons c a2), hne, he⟩

theorem isPrefixOf_false_of_colon {pat : List Char} (hc : ':' ∈ pat)
    (s : List Char) (hs : ':' ∉ s) : pat.isPrefixOf s = false := by
  by_contra hb
  have hp : pat.isPrefixOf s = true := by
    revert hb; cases pat.isPrefixOf s <;> simp
  exact hs ((List.isPrefixOf_iff_prefix.mp hp).subset hc)

theorem removeAll_http_of_https (rest : List Char) (hc : ':' ∉ rest) :
    removeAll "http://".data ("https://".data ++ rest) = "https://".data ++ rest := by
  apply removeAll_of_no_occ
  intro suf hsuf
  by_contra hb
  have hp : "http://".data.isPrefixOf suf = true := by
    revert hb; cases "http://".data.isPrefixOf suf <;> simp
  have hpre : "http://".data <+: suf := List.isPrefixOf_iff_prefix.mp hp
  rcases suffix_append_cases _ hsuf with h1 | ⟨a1, ha1, hne, he⟩
  · exact hc (h1.subset (hpre.subset (by decide)))
  · subst he
    obtain ⟨z, hz⟩ := hpre
    have hmin := take_min_eq hz.symm
    have hlen : a1.length ≤ 8 := by
      have := ha1.length_le
      simpa using this
    have hpos : 1 ≤ a1.length := by
      have := List.length_pos_of_ne_nil hne
      omega
    have hdrop : a1 = List.drop ("https://".data.length - a1.length) "https://".data :=
      List.suffix_iff_eq_drop.mp ha1
    obtain ⟨n, hn1, hn2, hna⟩ :
        ∃ n, 1 ≤ n ∧ n ≤ 8 ∧ a1 = List.drop (8 - n) "https://".data :=
      ⟨a1.length, hpos, hlen, by simpa using hdrop⟩
    subst hna
    interval_cases n <;> exact absurd hmin (by decide)

theorem isPrefixOf_http_https (rest : List Char) :
    "http://".data.isPrefixOf ("https://".data ++ rest) = false := by
  by_contra hb
  have hp : "http://".data.isPrefixOf ("https://".data ++ rest) = true := by
    revert hb; cases "http://".data.isPrefixOf ("https://".data ++ rest) <;> simp
  obtain ⟨z, hz⟩ := List.isPrefixOf_iff_prefix.mp hp
  exact absurd (take_min_eq hz.symm) (by decide)

theorem stripScheme_spec {sch rest : List Char} (h : SchemeSpec sch) (hc : ':' ∉ rest) :
    stripScheme (sch ++ rest) = rest := by
  rcases h with rfl | rfl | rfl
  · rw [List.nil_append, stripScheme,
      isPrefixOf_false_of_colon (by decide) rest hc,
      isPrefixOf_false_of_colon (by decide) rest hc]
    simp
  · rw [stripScheme]
    have h1 : "http://".data.isPrefixOf ("http://".data ++ rest) = true :=
      List.isPrefixOf_iff_prefix.mpr (List.prefix_append _ _)
    rw [h1]
    simp only [if_true]
    exact List.drop_left' (by decide)
  · rw [stripScheme, isPrefixOf_http_https]
    have h2 : "https://".data.isPrefixOf ("https://".data ++ rest) = true :=
      List.isPrefixOf_iff_prefix.mpr (List.prefix_append _ _)
    rw [h2]
    simp only [Bool.false_eq_true, if_false, if_true]
    exact List.drop_left' (by decide)

theorem removeAll_schemes {sch rest : List Char} (h : SchemeSpec sch) (hc : ':' ∉ rest) :
    removeAll "https://".data (removeAll "http://".data (sch ++ rest)) = rest := by
  rcases h with rfl | rfl | rfl
  · rw [List.nil_append, removeAll_of_not_mem _ ':' (by decide) rest hc,
      removeAll_of_not_mem _ ':' (by decide) rest hc]
  · rw [removeAll_append_self _ (by decide), removeAll_of_not_mem _ ':' (by decide) rest hc,
      removeAll_of_not_mem _ ':' (by decide) rest hc]
  · rw [removeAll_http_of_https rest hc, removeAll_append_self _ (by decide),
      removeAll_of_not_mem _ ':' (by decide) rest hc]

/-! ### Helper lemmas about `takeWhile`, `dropWhile`, `stripWhile` -/

theorem takeWhile_append_all {p : Char → Bool} :
    ∀ {a : List Char}, (∀ c ∈ a, p c = true) →
      ∀ b, (a ++ b).takeWhile p = a ++ b.takeWhile p := by
  intro a
  induction a with
  | nil => intro _ b; simp
  | cons c a2 ih =>
    intro h b
    have hc : p c = true := h c (List.mem_cons_self c a2)
    simp [List.takeWhile_cons, hc, ih (fun d hd => h d (List.mem_cons_of_mem c hd)) b]

theorem dropWhile_append_all {p : Char → Bool} :
    ∀ {a : List Char}, (∀ c ∈ a, p c = true) →
      ∀ b, (a ++ b).dropWhile p = b.dropWhile p := by
  intro a
  induction a with
  | nil => intro _ b; simp
  | cons c a2 ih =>
    intro h b
    have hc : p c = true := h c (List.mem_cons_self c a2)
    simp [List.dropWhile_cons, hc, ih (fun d hd => h d (List.mem_cons_of_mem c hd)) b]

theorem takeWhile_all {p : Char → Bool} {a : List Char} (h : ∀ c ∈ a, p c = true) :
    a.takeWhile p = a := by
  have h2 := takeWhile_append_all h []
  simpa using h2

theorem dropWhile_eq_self_of_head {p : Char → Bool} {l : List Char}
    (h : ∀ c, l.head? = some c → p c = false) : l.dropWhile p = l := by
  cases l with
  | nil => rfl
  | cons c cs =>
    have hc := h c rfl
    simp [List.dropWhile_cons, hc]

theorem dropWhile_head_false {p : Char → Bool} :
    ∀ {l : List Char} {c : Char} {r : List Char}, l.dropWhile p = c :: r → p c = false := by
  intro l
  induction l with
  | nil => intro c r h; simp at h
  | cons a as ih =>
    intro c r h
    rw [List.dropWhile_cons] at h
    by_cases ha : p a = true
    · rw [if_pos ha] at h
      exact ih h
    · rw [if_neg ha] at h
      injection h with h1 _
      subst h1
      exact eq_false_of_ne_true ha

theorem dropWhile_append_split (p : Char → Bool) :
    ∀ x y : List Char, (x ++ y).dropWhile p =
      if (x.dropWhile p).isEmpty then y.dropWhile p else x.dropWhile p ++ y := by
  intro x
  induction x with
  | nil => intro y; simp
  | cons c x2 ih =>
    intro y
    by_cases hc : p c = true
    · simp [List.dropWhile_cons, hc, ih y]
    · have hc2 : p c = false := eq_false_of_ne_true hc
      simp [List.dropWhile_cons, hc2]

theorem stripWhile_append_left {p : Char → Bool} {host path : List Char}
    (hne : host ≠ []) (hall : ∀ c ∈ host, p c = false) :
    stripWhile p (host ++ path) = host ++ (path.reverse.dropWhile p).reverse := by
  unfold stripWhile
  have h1 : (host ++ path).dropWhile p = host ++ path := by
    cases host with
    | nil => exact absurd rfl hne
    | cons c cs =>
      have hc := hall c (List.mem_cons_self c cs)
      simp [List.dropWhile_cons, hc]
  rw [h1, List.reverse_append, dropWhile_append_split]
  have h2 : host.reverse.dropWhile p = host.reverse :=
    dropWhile_eq_self_of_head fun c hc =>
      hall c (List.mem_reverse.mp (List.mem_of_mem_head? hc))
  by_cases h3 : (path.reverse.dropWhile p).isEmpty
  · rw [if_pos h3, h2, List.reverse_reverse]
    have h4 : path.reverse.dropWhile p = [] := by simpa using h3
    rw [h4]
    simp
  · rw [if_neg h3, List.reverse_append, List.reverse_reverse]

theorem head?_dropWhile_false {p : Char → Bool} {l : List Char} {c : Char}
    (h : (l.dropWhile p).head? = some c) : p c = false := by
  cases hd : l.dropWhile p with
  | nil => rw [hd] at h; simp at h
  | cons a r =>
    rw [hd] at h
    simp only [List.head?_cons, Option.some.injEq] at h
    subst h
    exact dropWhile_head_false hd

theorem getLast?_stripWhile {p : Char → Bool} {l : List Char} {c : Char}
    (h : (stripWhile p l).getLast? = some c) : p c = false := by
  unfold stripWhile at h
  rw [List.getLast?_reverse] at h
  exact head?_dropWhile_false h

theorem head?_stripWhile {p : Char → Bool} {l : List Char} {c : Char}
    (h : (stripWhile p l).head? = some c) : p c = false := by
  unfold stripWhile at h
  rw [List.head?_reverse] at h
  cases hy : ((l.dropWhile p).reverse).dropWhile p with
  | nil => rw [hy] at h; simp at h
  | cons a r =>
    rw [hy] at h
    obtain ⟨w, hw⟩ := List.dropWhile_suffix (l := (l.dropWhile p).reverse) p
    rw [hy] at hw
    have h5 : ((l.dropWhile p).reverse).getLast? = some c := by
      rw [← hw, List.getLast?_append, h]
      rfl
    rw [List.getLast?_reverse] at h5
    exact head?_dropWhile_false h5

theorem stripWhile_eq_self {p : Char → Bool} {l : List Char}
    (h1 : ∀ c, l.head? = some c → p c = false)
    (h2 : ∀ c, l.getLast? = some c → p c = false) :
    stripWhile p l = l := by
  unfold stripWhile
  rw [dropWhile_eq_self_of_head h1]
  rw [dropWhile_eq_self_of_head fun c hc => h2 c (by rwa [List.head?_reverse] at hc)]
  exact List.reverse_reverse l

theorem mem_stripWhile {p : Char → Bool} {l : List Char} {c : Char}
    (h : c ∈ stripWhile p l) : c ∈ l := by
  unfold stripWhile at h
  rw [List.mem_reverse] at h
  have h2 := (List.dropWhile_suffix (l := (l.dropWhile p).reverse) p).subset h
  rw [List.mem_reverse] at h2
  exact (List.dropWhile_suffix p).subset h2

theorem rejoin_splitFirstSlash {t : List Char} (hlast : t.getLast? ≠ some '/') :
    rejoinL (splitFirstSlash t) = t := by
  cases hd : t.dropWhile (fun c => c != '/') with
  | nil =>
    have h2 : t.takeWhile (fun c => c != '/') = t := by
      have h3 := List.takeWhile_append_dropWhile (p := fun c => c != '/') (l := t)
      rwa [hd, List.append_nil] at h3
    simp only [splitFirstSlash, rejoinL, hd, h2]
    rfl
  | cons c tail =>
    have hc : (c != '/') = false := dropWhile_head_false (p := fun c => c != '/') hd
    have hc2 : c = '/' := by simpa using hc
    subst hc2
    have h3 := List.takeWhile_append_dropWhile (p := fun c => c != '/') (l := t)
    rw [hd] at h3
    cases tail with
    | nil =>
      exfalso
      apply hlast
      rw [← h3, List.getLast?_concat]
    | cons c2 tail2 =>
      simp only [splitFirstSlash, rejoinL, hd]
      rw [if_neg (by simp)]
      exact h3

theorem splitFirstSlash_fst_no_slash (t : List Char) : '/' ∉ (splitFirstSlash t).1 := by
  intro h
  have h2 := List.mem_takeWhile_imp h
  simp at h2

theorem pyStripSlash_getLast {t : List Char} : (pyStripSlash t).getLast? ≠ some '/' := by
  intro h
  have h2 := getLast?_stripWhile h
  simp at h2

/-! ### Helper lemmas about `splitOnChar`, `unsplitChar`, `hostOf`, `tldOk` -/

theorem splitOnChar_ne_nil (sep : Char) (l : List Char) : splitOnChar sep l ≠ [] := by
  cases l with
  | nil => simp [splitOnChar]
  | cons c cs =>
    simp only [splitOnChar]
    split
    · simp
    · split <;> simp

theorem splitOnChar_cons_eq (sep : Char) (cs : List Char) :
    splitOnChar sep (sep :: cs) = [] :: splitOnChar sep cs := by
  simp [splitOnChar]

theorem splitOnChar_cons_of_ne {sep c : Char} (cs : List Char) (hc : (c == sep) = false) :
    ∃ h t, splitOnChar sep cs = h :: t ∧ splitOnChar sep (c :: cs) = (c :: h) :: t := by
  cases hs : splitOnChar sep cs with
  | nil => exact absurd hs (splitOnChar_ne_nil sep cs)
  | cons h t =>
    refine ⟨h, t, rfl, ?_⟩
    simp only [splitOnChar, hs]
    rw [if_neg (by simp [hc])]

theorem unsplit_cons_cons (sep c : Char) (h : List Char) (t : List (List Char)) :
    unsplitChar sep ((c :: h) :: t) = c :: unsplitChar sep (h :: t) := by
  cases t with
  | nil => rfl
  | cons a b => rfl

theorem unsplit_splitOnChar (sep : Char) : ∀ l, unsplitChar sep (splitOnChar sep l) = l := by
  intro l
  induction l with
  | nil => rfl
  | cons c cs ih =>
    by_cases hc : (c == sep) = true
    · have hc2 : c = sep := by simpa using hc
      subst hc2
      rw [splitOnChar_cons_eq]
      cases hs : splitOnChar c cs with
      | nil => exact absurd hs (splitOnChar_ne_nil c cs)
      | cons h t =>
        rw [hs] at ih
        show unsplitChar c ([] :: h :: t) = c :: cs
        simp only [unsplitChar, List.nil_append]
        rw [ih]
    · have hc2 : (c == sep) = false := eq_false_of_ne_true hc
      obtain ⟨h, t, hs1, hs2⟩ := splitOnChar_cons_of_ne cs hc2
      rw [hs2, unsplit_cons_cons, ← hs1, ih]

theorem splitOnChar_label (sep : Char) :
    ∀ (l rest : List Char), (∀ c ∈ l, (c == sep) = false) →
      splitOnChar sep (l ++ sep :: rest) = l :: splitOnChar sep rest := by
  intro l
  induction l with
  | nil => intro rest _; exact splitOnChar_cons_eq sep rest
  | cons c l2 ih =>
    intro rest h
    have hc := h c (List.mem_cons_self c l2)
    obtain ⟨h1, t1, hs1, hs2⟩ := splitOnChar_cons_of_ne (l2 ++ sep :: rest) hc
    rw [List.cons_append, hs2]
    rw [ih rest (fun d hd => h d (List.mem_cons_of_mem c hd))] at hs1
    injection hs1 with e1 e2
    rw [← e1, ← e2]


theorem unsplit_append_left (sep : Char) :
    ∀ I L : List (List Char), L ≠ [] →
      unsplitChar sep (I ++ L) =
        (I.map fun l => l ++ [sep]).flatten ++ unsplitChar sep L := by
  intro I
  induction I with
  | nil => intro L _; simp
  | cons x I2 ih =>
    intro L hL
    have hne : I2 ++ L ≠ [] := by
      intro e
      exact hL (List.append_eq_nil.mp e).2
    have step : unsplitChar sep (x :: (I2 ++ L)) = x ++ sep :: unsplitChar sep (I2 ++ L) := by
      cases hcase : I2 ++ L with
      | nil => exact absurd hcase hne
      | cons y ys => rfl
    rw [List.cons_append, step, ih L hL]
    simp [List.append_assoc]

theorem hostOf_cons (l : List Char) (ls : List (List Char)) (tld : List Char) :
    hostOf (l :: ls) tld = l ++ '.' :: hostOf ls tld := by
  simp [hostOf, List.append_assoc]

theorem hostOf_eq_unsplit (I tldcomps : List (List Char)) (h : tldcomps ≠ []) :
    unsplitChar '.' (I ++ tldcomps) = hostOf I (unsplitChar '.' tldcomps) := by
  rw [unsplit_append_left '.' I tldcomps h]
  rfl

theorem labelChar_ne_dot {c : Char} (h : isLabelChar c = true) : (c == '.') = false := by
  rcases Bool.eq_false_or_eq_true (c == '.') with h2 | h2
  · have hc : c = '.' := by simpa using h2
    subst hc
    exact absurd h (by decide)
  · exact h2

theorem splitOnChar_hostOf {labels : List (List Char)} {tld : List Char}
    (hl : ∀ l ∈ labels, LabelSpec l) :
    splitOnChar '.' (hostOf labels tld) = labels ++ splitOnChar '.' tld := by
  induction labels with
  | nil => simp [hostOf]
  | cons l ls ih =>
    rw [hostOf_cons]
    rw [splitOnChar_label '.' l (hostOf ls tld)
      (fun c hc => labelChar_ne_dot ((hl l (List.mem_cons_self l ls)).2 c hc))]
    rw [ih (fun d hd => hl d (List.mem_cons_of_mem l hd))]
    rfl

theorem labelsOk_spec {comps : List (List Char)} (h : labelsOk comps = true) :
    ∀ l ∈ comps, LabelSpec l := by
  intro l hl
  rw [labelsOk, List.all_eq_true] at h
  have h2 := h l hl
  rw [Bool.and_eq_true] at h2
  constructor
  · intro e
    subst e
    simp at h2
  · intro c hc
    exact List.all_eq_true.mp h2.2 c hc

theorem labelsOk_of_spec {comps : List (List Char)} (h : ∀ l ∈ comps, LabelSpec l) :
    labelsOk comps = true := by
  rw [labelsOk, List.all_eq_true]
  intro l hl
  rw [Bool.and_eq_true]
  obtain ⟨h1, h2⟩ := h l hl
  refine ⟨?_, List.all_eq_true.mpr h2⟩
  cases l with
  | nil => exact absurd rfl h1
  | cons a b => rfl

theorem tldOk_append_com (I : List (List Char)) (hI : I ≠ []) :
    tldOk (I ++ ["com".data]) = true := by
  unfold tldOk
  rw [List.reverse_append]
  simp only [List.reverse_cons, List.reverse_nil, List.nil_append, List.singleton_append]
  have e1 : I.reverse.isEmpty = false := by
    cases hr : I.reverse with
    | nil => exact absurd (List.reverse_eq_nil_iff.mp hr) hI
    | cons a b => rfl
  simp [e1]

theorem tldOk_append_org (I : List (List Char)) (hI : I ≠ []) :
    tldOk (I ++ ["org".data]) = true := by
  unfold tldOk
  rw [List.reverse_append]
  simp only [List.reverse_cons, List.reverse_nil, List.nil_append, List.singleton_append]
  have e1 : I.reverse.isEmpty = false := by
    cases hr : I.reverse with
    | nil => exact absurd (List.reverse_eq_nil_iff.mp hr) hI
    | cons a b => rfl
  simp [e1]

theorem tldOk_append_couk (I : List (List Char)) (hI : I ≠ []) :
    tldOk (I ++ ["co".data, "uk".data]) = true := by
  unfold tldOk
  rw [List.reverse_append]
  simp only [List.reverse_cons, List.reverse_nil, List.nil_append, List.cons_append,
    List.singleton_append]
  have e1 : I.reverse.isEmpty = false := by
    cases hr : I.reverse with
    | nil => exact absurd (List.reverse_eq_nil_iff.mp hr) hI
    | cons a b => rfl
  have e2 : (("uk".data : List Char) == "com".data) = false := by decide
  have e3 : (("uk".data : List Char) == "org".data) = false := by decide
  simp [e1, e2, e3]

theorem tldOk_cases {comps : List (List Char)} (h : tldOk comps = true) :
    (∃ I, I ≠ [] ∧ comps = I ++ ["com".data]) ∨
    (∃ I, I ≠ [] ∧ comps = I ++ ["org".data]) ∨
    (∃ I, I ≠ [] ∧ comps = I ++ ["co".data, "uk".data]) := by
  unfold tldOk at h
  cases hr : comps.reverse with
  | nil => rw [hr] at h; simp at h
  | cons lastc rest =>
    rw [hr] at h
    have hcomps : comps = rest.reverse ++ [lastc] := by
      have h2 := congrArg List.reverse hr
      simpa using h2
    rw [Bool.or_eq_true] at h
    rcases h with h | h
    · rw [Bool.and_eq_true] at h
      obtain ⟨h1, h2⟩ := h
      have hrne : rest.reverse ≠ [] := by
        intro e
        rw [List.reverse_eq_nil_iff] at e
        subst e
        simp at h2
      rw [Bool.or_eq_true] at h1
      rcases h1 with h1 | h1
      · have hl : lastc = "com".data := by simpa using h1
        exact Or.inl ⟨rest.reverse, hrne, by rw [hcomps, hl]⟩
      · have hl : lastc = "org".data := by simpa using h1
        exact Or.inr (Or.inl ⟨rest.reverse, hrne, by rw [hcomps, hl]⟩)
    · rw [Bool.and_eq_true] at h
      obtain ⟨h1, h2⟩ := h
      have hlast : lastc = "uk".data := by simpa using h1
      cases rest with
      | nil => simp at h2
      | cons co2 rest2 =>
        have h24 : (co2 == "co".data && !rest2.isEmpty) = true := h2
        rw [Bool.and_eq_true] at h24
        obtain ⟨h3, h4⟩ := h24
        have hco : co2 = "co".data := by simpa using h3
        have hr2 : rest2.reverse ≠ [] := by
          intro e
          rw [List.reverse_eq_nil_iff] at e
          subst e
          simp at h4
        refine Or.inr (Or.inr ⟨rest2.reverse, hr2, ?_⟩)
        rw [hcomps, List.reverse_cons, hlast, hco]
        simp [List.append_assoc]

/-! ### The address grammar matches the validation recognizer -/

theorem mem_hostOf {labels : List (List Char)} {tld : List Char} {c : Char}
    (h : c ∈ hostOf labels tld) : (∃ l ∈ labels, c ∈ l) ∨ c = '.' ∨ c ∈ tld := by
  unfold hostOf at h
  rw [List.mem_append] at h
  rcases h with h | h
  · rw [List.mem_flatten] at h
    obtain ⟨x, hx, hc⟩ := h
    rw [List.mem_map] at hx
    obtain ⟨l, hl, rfl⟩ := hx
    rw [List.mem_append] at hc
    rcases hc with hc | hc
    · exact Or.inl ⟨l, hl, hc⟩
    · simp only [List.mem_singleton] at hc
      exact Or.inr (Or.inl hc)
  · exact Or.inr (Or.inr h)

theorem colon_not_mem {labels : List (List Char)} {tld path : List Char}
    (hl : ∀ l ∈ labels, LabelSpec l) (ht : TldSpec tld) (hp : PathSpec path) :
    ':' ∉ hostOf labels tld ++ path := by
  intro h
  rw [List.mem_append] at h
  rcases h with h | h
  · rcases mem_hostOf h with ⟨l, hl2, hc⟩ | h | h
    · exact absurd ((hl l hl2).2 ':' hc) (by decide)
    · exact absurd h (by decide)
    · rcases ht with rfl | rfl | rfl <;> exact absurd h (by decide)
  · rcases hp with rfl | ⟨r, rfl, hr⟩
    · simp at h
    · rcases List.mem_cons.mp h with h2 | h2
      · exact absurd h2 (by decide)
      · exact absurd (hr ':' h2) (by decide)

theorem bne_slash_of_labelChar {c : Char} (h : isLabelChar c = true) : (c != '/') = true := by
  simp only [bne_iff_ne, ne_eq]
  intro e
  subst e
  exact absurd h (by decide)

theorem host_chars_ne_slash {labels : List (List Char)} {tld : List Char}
    (hl : ∀ l ∈ labels, LabelSpec l) (ht : TldSpec tld) :
    ∀ c ∈ hostOf labels tld, (c != '/') = true := by
  intro c hc
  rcases mem_hostOf hc with ⟨l, hl2, h⟩ | h | h
  · exact bne_slash_of_labelChar ((hl l hl2).2 c h)
  · subst h; decide
  · rcases ht with rfl | rfl | rfl
    · exact (by decide : ∀ d ∈ "com".data, (d != '/') = true) c h
    · exact (by decide : ∀ d ∈ "co.uk".data, (d != '/') = true) c h
    · exact (by decide : ∀ d ∈ "org".data, (d != '/') = true) c h

theorem matchesBody_eq (s : List Char) :
    matchesBody s =
      (hostOk ((stripScheme s).takeWhile fun c => c != '/') &&
        pathOk ((stripScheme s).dropWhile fun c => c != '/')) := rfl

theorem labelSpec_tld_comps {tld : List Char} (ht : TldSpec tld) :
    ∀ l ∈ splitOnChar '.' tld, LabelSpec l := by
  rcases ht with rfl | rfl | rfl
  · intro l h2
    rw [(by decide : splitOnChar '.' "com".data = ["com".data])] at h2
    simp only [List.mem_singleton] at h2
    subst h2
    exact ⟨by decide, by decide⟩
  · intro l h2
    rw [(by decide : splitOnChar '.' "co.uk".data = ["co".data, "uk".data])] at h2
    rcases List.mem_cons.mp h2 with rfl | h3
    · exact ⟨by decide, by decide⟩
    · simp only [List.mem_singleton] at h3
      subst h3
      exact ⟨by decide, by decide⟩
  · intro l h2
    rw [(by decide : splitOnChar '.' "org".data = ["org".data])] at h2
    simp only [List.mem_singleton] at h2
    subst h2
    exact ⟨by decide, by decide⟩

theorem hostOk_hostOf {labels : List (List Char)} {tld : List Char}
    (hne : labels ≠ []) (hl : ∀ l ∈ labels, LabelSpec l) (ht : TldSpec tld) :
    hostOk (hostOf labels tld) = true := by
  unfold hostOk
  rw [splitOnChar_hostOf hl, Bool.and_eq_true]
  constructor
  · apply labelsOk_of_spec
    intro l hl2
    rw [List.mem_append] at hl2
    rcases hl2 with h2 | h2
    · exact hl l h2
    · exact labelSpec_tld_comps ht l h2
  · rcases ht with rfl | rfl | rfl
    · rw [(by decide : splitOnChar '.' "com".data = ["com".data])]
      exact tldOk_append_com labels hne
    · rw [(by decide : splitOnChar '.' "co.uk".data = ["co".data, "uk".data])]
      exact tldOk_append_couk labels hne
    · rw [(by decide : splitOnChar '.' "org".data = ["org".data])]
      exact tldOk_append_org labels hne

theorem matchesBody_of_grammar {s : List Char} (h : SpecGrammar s) : matchesBody s = true := by
  obtain ⟨sch, labels, tld, path, hsch, hne, hl, ht, hp, rfl⟩ := h
  rw [List.append_assoc, matchesBody_eq,
    stripScheme_spec hsch (colon_not_mem hl ht hp),
    takeWhile_append_all (host_chars_ne_slash hl ht) path,
    dropWhile_append_all (host_chars_ne_slash hl ht) path]
  rcases hp with rfl | ⟨r, rfl, hr⟩
  · simp only [List.takeWhile_nil, List.dropWhile_nil, List.append_nil]
    rw [Bool.and_eq_true]
    exact ⟨hostOk_hostOf hne hl ht, rfl⟩
  · have e1 : ('/' :: r).takeWhile (fun c => c != '/') = [] := by
      simp [List.takeWhile_cons]
    have e2 : ('/' :: r).dropWhile (fun c => c != '/') = '/' :: r := by
      simp [List.dropWhile_cons]
    rw [e1, e2, List.append_nil, Bool.and_eq_true]
    refine ⟨hostOk_hostOf hne hl ht, ?_⟩
    show ('/' == '/' && r.all isPathChar) = true
    rw [Bool.and_eq_true]
    exact ⟨rfl, List.all_eq_true.mpr hr⟩

theorem stripScheme_cases (s : List Char) : ∃ sch, SchemeSpec sch ∧ s = sch ++ stripScheme s := by
  unfold stripScheme
  by_cases h1 : "http://".data.isPrefixOf s = true
  · rw [if_pos h1]
    refine ⟨"http://".data, Or.inr (Or.inl rfl), ?_⟩
    obtain ⟨t, ht⟩ := List.isPrefixOf_iff_prefix.mp h1
    rw [← ht]
    congr 1
  · rw [if_neg h1]
    by_cases h2 : "https://".data.isPrefixOf s = true
    · rw [if_pos h2]
      refine ⟨"https://".data, Or.inr (Or.inr rfl), ?_⟩
      obtain ⟨t, ht⟩ := List.isPrefixOf_iff_prefix.mp h2
      rw [← ht]
      congr 1
    · rw [if_neg h2]
      exact ⟨[], Or.inl rfl, rfl⟩

theorem pathSpec_of_pathOk {path : List Char} (h : pathOk path = true) : PathSpec path := by
  cases path with
  | nil => exact Or.inl rfl
  | cons c cs =>
    have h2 : (c == '/' && cs.all isPathChar) = true := h
    rw [Bool.and_eq_true] at h2
    have hc : c = '/' := by simpa using h2.1
    exact Or.inr ⟨cs, by rw [hc], List.all_eq_true.mp h2.2⟩

theorem grammar_of_body {t : List Char}
    (hh : hostOk (t.takeWhile fun c => c != '/') = true)
    (hp : pathOk (t.dropWhile fun c => c != '/') = true) :
    ∃ labels tld path, labels ≠ [] ∧ (∀ l ∈ labels, LabelSpec l) ∧ TldSpec tld ∧
      PathSpec path ∧ t = hostOf labels tld ++ path := by
  have hpath := pathSpec_of_pathOk hp
  have hsplit : (t.takeWhile fun c => c != '/') ++ (t.dropWhile fun c => c != '/') = t :=
    List.takeWhile_append_dropWhile _ _
  unfold hostOk at hh
  rw [Bool.and_eq_true] at hh
  obtain ⟨hlab, htld⟩ := hh
  have hcompsEq := unsplit_splitOnChar '.' (t.takeWhile fun c => c != '/')
  have hlabels : ∀ I, splitOnChar '.' (t.takeWhile fun c => c != '/') = I → ∀ l ∈ I, LabelSpec l := by
    intro I hI l hl
    exact labelsOk_spec hlab l (hI ▸ hl)
  rcases tldOk_cases htld with ⟨I, hI, hc⟩ | ⟨I, hI, hc⟩ | ⟨I, hI, hc⟩
  · have hl2 : ∀ l ∈ I, LabelSpec l := fun l hl =>
      labelsOk_spec hlab l (by rw [hc]; exact List.mem_append_left _ hl)
    rw [hc] at hcompsEq
    rw [hostOf_eq_unsplit I ["com".data] (by simp)] at hcompsEq
    have e : unsplitChar '.' ([("com".data : List Char)]) = "com".data := rfl
    rw [e] at hcompsEq
    refine ⟨I, "com".data, t.dropWhile fun c => c != '/', hI, hl2, Or.inl rfl, hpath, ?_⟩
    rw [hcompsEq]
    exact hsplit.symm
  · have hl2 : ∀ l ∈ I, LabelSpec l := fun l hl =>
      labelsOk_spec hlab l (by rw [hc]; exact List.mem_append_left _ hl)
    rw [hc] at hcompsEq
    rw [hostOf_eq_unsplit I ["org".data] (by simp)] at hcompsEq
    have e : unsplitChar '.' ([("org".data : List Char)]) = "org".data := rfl
    rw [e] at hcompsEq
    refine ⟨I, "org".data, t.dropWhile fun c => c != '/', hI, hl2,
      Or.inr (Or.inr rfl), hpath, ?_⟩
    rw [hcompsEq]
    exact hsplit.symm
  · have hl2 : ∀ l ∈ I, LabelSpec l := fun l hl =>
      labelsOk_spec hlab l (by rw [hc]; exact List.mem_append_left _ hl)
    rw [hc] at hcompsEq
    rw [hostOf_eq_unsplit I ["co".data, "uk".data] (by simp)] at hcompsEq
    have e : unsplitChar '.' ([("co".data : List Char), "uk".data]) = "co.uk".data := rfl
    rw [e] at hcompsEq
    refine ⟨I, "co.uk".data, t.dropWhile fun c => c != '/', hI, hl2,
      Or.inr (Or.inl rfl), hpath, ?_⟩
    rw [hcompsEq]
    exact hsplit.symm

theorem grammar_of_matchesBody {s : List Char} (h : matchesBody s = true) : SpecGrammar s := by
  obtain ⟨sch, hsch, hseq⟩ := stripScheme_cases s
  rw [matchesBody_eq, Bool.and_eq_true] at h
  obtain ⟨labels, tld, path, hne, hl, ht, hp, heq⟩ := grammar_of_body h.1 h.2
  exact ⟨sch, labels, tld, path, hsch, hne, hl, ht, hp,
    by rw [List.append_assoc, ← heq]; exact hseq⟩

theorem specGrammar_iff_matchesBody (s : List Char) : SpecGrammar s ↔ matchesBody s = true :=
  ⟨matchesBody_of_grammar, grammar_of_matchesBody⟩

/-! ### Helper lemmas about the interceptor, `load_page` and the view state -/

theorem validateL_of_grammar {s : List Char} (h : SpecGrammar s) : validateL s = true := by
  rw [validateL, Bool.or_eq_true]
  exact Or.inl (matchesBody_of_grammar h)

theorem pyStartswith_append (a b : String) : pyStartswith (a ++ b) a = true := by
  unfold pyStartswith
  rw [String.data_append]
  exact List.isPrefixOf_iff_prefix.mpr (List.prefix_append _ _)

theorem pyStartswith_append_right {s a : String} (h : pyStartswith s a = true) (t : String) :
    pyStartswith (s ++ t) a = true := by
  unfold pyStartswith at h ⊢
  rw [String.data_append]
  exact List.isPrefixOf_iff_prefix.mpr
    ((List.isPrefixOf_iff_prefix.mp h).trans (List.prefix_append _ _))

theorem rewrittenTarget_startswith (d p : String) :
    pyStartswith (rewrittenTarget d p) GITHUB_BASE = true := by
  unfold rewrittenTarget
  by_cases hp : p ≠ ""
  · rw [if_pos hp]
    exact pyStartswith_append_right (pyStartswith_append_right
      (pyStartswith_append_right (pyStartswith_append _ _) _) _) _
  · rw [if_neg hp]
    exact pyStartswith_append_right (pyStartswith_append _ _) _

theorem accept_shape (url : String) :
    acceptNavigationRequest url = ([], true) ∨ acceptNavigationRequest url = ([], false) ∨
    ∃ d p, acceptNavigationRequest url =
      ([NavEffect.setVirtualUrl (virtualAddress d p), NavEffect.setUrl (rewrittenTarget d p)],
        false) := by
  unfold acceptNavigationRequest
  split
  · exact Or.inl rfl
  · split
    · split
      · exact Or.inr (Or.inr ⟨_, _, rfl⟩)
      · exact Or.inr (Or.inl rfl)
    · exact Or.inr (Or.inl rfl)

theorem accept_true_startswith {url : String}
    (h : (acceptNavigationRequest url).2 = true) : pyStartswith url GITHUB_BASE = true := by
  by_contra h2
  have h3 : ¬pyStartswith url GITHUB_BASE = true := h2
  unfold acceptNavigationRequest at h
  rw [if_neg h3] at h
  split at h
  · split at h
    · simp at h
    · simp at h
  · simp at h

theorem check_load_shape (success : Bool) (title : Option String) (c : Location) :
    (∃ m, check_load_success success title c = Location.errorDoc m) ∨
      check_load_success success title c = c := by
  unfold check_load_success check_title_for_404
  split
  · exact Or.inl ⟨"Page failed to load", rfl⟩
  · split
    · exact Or.inr rfl
    · split
      · exact Or.inl ⟨"Page not found", rfl⟩
      · exact Or.inr rfl

theorem load_page_target {text t v d : String}
    (h : load_page text = LoadPageResult.load t v d) : pyStartswith t GITHUB_BASE = true := by
  unfold load_page at h
  by_cases h1 : (pyLower (pyStripSpace text.data) = "start".data ∨
      pyLower (pyStripSpace text.data) = "websites/start".data)
  · rw [if_pos h1] at h
    simp at h
  · rw [if_neg h1] at h
    by_cases h2 : validateL (pyStripSpace text.data) = true
    · rw [if_pos h2] at h
      injection h with e1 e2 e3
      rw [← e1]
      exact rewrittenTarget_startswith _ _
    · rw [if_neg h2] at h
      simp at h

theorem pyStripSlash_idem (X : List Char) : pyStripSlash (pyStripSlash X) = pyStripSlash X := by
  unfold pyStripSlash
  apply stripWhile_eq_self
  · intro c hc
    exact head?_stripWhile (p := fun x => x == '/') hc
  · intro c hc
    exact getLast?_stripWhile (p := fun x => x == '/') hc

theorem stripScheme_of_no_colon {X : List Char} (h : ':' ∉ X) : stripScheme X = X := by
  unfold stripScheme
  rw [isPrefixOf_false_of_colon (by decide) X h, isPrefixOf_false_of_colon (by decide) X h]
  simp

theorem parse_normalize_grammar {s : List Char} (h : SpecGrammar s) :
    rejoinL (parseL s) = normalizeL s ∧ normalizeL (rejoinL (parseL s)) = normalizeL s := by
  obtain ⟨sch, labels, tld, path, hsch, hne, hl, ht, hp, rfl⟩ := h
  have hcolon : ':' ∉ hostOf labels tld ++ path := colon_not_mem hl ht hp
  have hremove : removeAll "https://".data
      (removeAll "http://".data (sch ++ (hostOf labels tld ++ path))) =
      hostOf labels tld ++ path := removeAll_schemes hsch hcolon
  have hstrip : stripScheme (sch ++ (hostOf labels tld ++ path)) = hostOf labels tld ++ path :=
    stripScheme_spec hsch hcolon
  have hpar : parseL (sch ++ hostOf labels tld ++ path) =
      splitFirstSlash (pyStripSlash (hostOf labels tld ++ path)) := by
    unfold parseL
    rw [List.append_assoc, hremove]
  have hnorm : normalizeL (sch ++ hostOf labels tld ++ path) =
      pyStripSlash (hostOf labels tld ++ path) := by
    unfold normalizeL
    rw [List.append_assoc, hstrip]
  have hlast : (pyStripSlash (hostOf labels tld ++ path)).getLast? ≠ some '/' :=
    pyStripSlash_getLast
  have hjoin := rejoin_splitFirstSlash hlast
  have hcT : ':' ∉ pyStripSlash (hostOf labels tld ++ path) := fun hmem =>
    hcolon (mem_stripWhile hmem)
  constructor
  · rw [hpar, hnorm, hjoin]
  · rw [hpar, hnorm, hjoin]
    unfold normalizeL
    rw [stripScheme_of_no_colon hcT]
    exact pyStripSlash_idem _

theorem locationOk_check (success : Bool) (title : Option String) {loc : Location}
    (h : LocationOk loc) : LocationOk (check_load_success success title loc) := by
  rcases check_load_shape success title loc with ⟨m, h1⟩ | h1
  · rw [h1]
    trivial
  · rw [h1]
    exact h

/-! ### Claim theorems -/

/-- C1: in every reachable state of a view, the engine's loaded location is
the fixed start page, a location under the static-host base URL, or a locally
generated in-memory error document; no navigation step (interceptor decision,
address-bar submission, or error-document substitution) ever sets the
location to any other external origin. -/
theorem spec_C1_invariant (s : ViewState) (h : ReachableView s) : LocationOk s.location := by
  induction h with
  | init => exact Or.inl rfl
  | step hr hstep ih =>
    cases hstep with
    | nav u s2 =>
      rcases accept_shape u with h1 | h1 | ⟨d, p, h1⟩
      · simp only [applyNav, h1, List.foldl_nil, if_true]
        exact Or.inr (accept_true_startswith (by rw [h1]))
      · simp [applyNav, h1]
        exact ih
      · simp [applyNav, h1, applyEffect]
        exact Or.inr (rewrittenTarget_startswith d p)
    | submit text s2 =>
      cases hlp : load_page text with
      | loadStart =>
        simp [applySubmit, hlp]
        exact Or.inl rfl
      | invalid =>
        simp [applySubmit, hlp]
        trivial
      | load t v d =>
        simp [applySubmit, hlp]
        exact Or.inr (load_page_target hlp)
    | finish success title s2 =>
      exact locationOk_check success title ih

/-- Witness for C1: the invariant holds at the initial view state, which is
reachable. -/
theorem spec_C1_invariant_witness : LocationOk initialView.location :=
  spec_C1_invariant initialView ReachableView.init

/-- C4, counterexample: Python's `$` matches just before a trailing newline,
so `validate_input "example.com\n"` is true although `"example.com\n"` is
outside the spec grammar (newline is a disallowed character). -/
theorem spec_C4_counterexample :
    validate_input "example.com\n" = true ∧ ¬SpecGrammar "example.com\n".data := by
  constructor
  · decide
  · intro h
    exact absurd (matchesBody_of_grammar h) (by decide)

/-- C4, amended: `validate_input s` is true if and only if `s` matches the
address grammar, or `s` is a grammar-matching string followed by one trailing
newline. -/
theorem spec_C4_amended (s : String) :
    validate_input s = true ↔
      (SpecGrammar s.data ∨ ∃ t, s.data = t ++ ['\n'] ∧ SpecGrammar t) := by
  unfold validate_input validateL
  rw [Bool.or_eq_true, Bool.and_eq_true]
  constructor
  · rintro (h | ⟨hg, hm⟩)
    · exact Or.inl (grammar_of_matchesBody h)
    · refine Or.inr ⟨s.data.dropLast, ?_, grammar_of_matchesBody hm⟩
      have hg2 : s.data.getLast? = some '\n' := by simpa using hg
      exact (List.dropLast_append_getLast? '\n' (Option.mem_def.mpr hg2)).symm
  · rintro (h | ⟨t, ht, hg⟩)
    · exact Or.inl (matchesBody_of_grammar h)
    · refine Or.inr ⟨?_, ?_⟩
      · rw [ht, List.getLast?_concat]
        rfl
      · rw [ht, List.dropLast_concat]
        exact matchesBody_of_grammar hg

/-- Witness for C4 (amended): `"a.b.org"` matches the grammar, hence
validates. -/
theorem spec_C4_amended_witness : validate_input "a.b.org" = true :=
  (spec_C4_amended "a.b.org").mpr
    (Or.inl ⟨[], [['a'], ['b']], "org".data, [], by decide, by decide, by decide, by decide,
      Or.inl rfl, by decide⟩)

/-- C9: every string matching the address grammar validates, and parsing then
rejoining with a slash and re-normalizing (stripping the scheme and the
surrounding slashes) reproduces the normalized domain/subpath structure of
the input. -/
theorem spec_C9_roundtrip (s : String) (h : SpecGrammar s.data) :
    validate_input s = true ∧ rejoinL (parseL s.data) = normalizeL s.data ∧
      normalizeL (rejoinL (parseL s.data)) = normalizeL s.data :=
  ⟨validateL_of_grammar h, (parse_normalize_grammar h).1, (parse_normalize_grammar h).2⟩

/-- Witness for C9 at the grammar string `"http://example.com/a"`. -/
theorem spec_C9_roundtrip_witness :
    validate_input "http://example.com/a" = true ∧
      rejoinL (parseL "http://example.com/a".data) = normalizeL "http://example.com/a".data ∧
      normalizeL (rejoinL (parseL "http://example.com/a".data)) =
        normalizeL "http://example.com/a".data :=
  spec_C9_roundtrip "http://example.com/a"
    ⟨"http://".data, ["example".data], "com".data, '/' :: ['a'], by decide, by decide,
      by decide, by decide, Or.inr ⟨['a'], rfl, by decide⟩, by decide⟩

/-- C2, counterexample: for the navigation target `"https://example.com\nx"`
(not under the static host), the remainder after stripping the scheme is
`"example.com\nx"`, which fails validation, so the claim prescribes Block
(`([], false)`, no effects).  But the Python pattern `https?://(.+)` captures
only up to the newline, the group `"example.com"` validates, and the
interceptor cancels-and-redirects instead. -/
theorem spec_C2_counterexample :
    pyStartswith "https://example.com\nx" GITHUB_BASE = false ∧
    validate_input "example.com\nx" = false ∧
    acceptNavigationRequest "https://example.com\nx" =
      ([NavEffect.setVirtualUrl "example.com",
        NavEffect.setUrl "https://datlittladucky.github.io/Websites/example.com/index.html"],
        false) ∧
    acceptNavigationRequest "https://example.com\nx" ≠ ([], false) := by
  refine ⟨by decide, by decide, by decide, by decide⟩

/-- C2, amended: a target under the static host is allowed unchanged;
otherwise, if the target starts with `http://` or `https://` followed by at
least one non-newline character and the portion of the remainder up to the
first newline validates, the interceptor cancels the navigation, first sets
the view's virtual address and then issues the load of the rewritten target
(both computed from that portion); in every other case it blocks with no
effects. -/
theorem spec_C2_amended (url : String) :
    (pyStartswith url GITHUB_BASE = true → acceptNavigationRequest url = ([], true)) ∧
    (pyStartswith url GITHUB_BASE = false →
      ∀ g, schemeRemainder url.data = some g → validateL g = true →
        acceptNavigationRequest url =
          ([NavEffect.setVirtualUrl
              (virtualAddress (parseL g).1.asString (parseL g).2.asString),
            NavEffect.setUrl
              (rewrittenTarget (parseL g).1.asString (parseL g).2.asString)], false)) ∧
    (pyStartswith url GITHUB_BASE = false →
      (∀ g, schemeRemainder url.data = some g → validateL g = false) →
      acceptNavigationRequest url = ([], false)) := by
  refine ⟨?_, ?_, ?_⟩
  · intro h
    unfold acceptNavigationRequest
    rw [if_pos h]
  · intro h g hg hv
    have h2 : ¬pyStartswith url GITHUB_BASE = true := by simp [h]
    simp only [acceptNavigationRequest, if_neg h2, hg, if_pos hv]
  · intro h hv
    have h2 : ¬pyStartswith url GITHUB_BASE = true := by simp [h]
    cases hg : schemeRemainder url.data with
    | none => simp only [acceptNavigationRequest, if_neg h2, hg]
    | some g =>
      have h3 : ¬validateL g = true := by simp [hv g hg]
      simp only [acceptNavigationRequest, if_neg h2, hg, if_neg h3]

/-- Witness for C2 (amended): `"https://example.com"` is redirected, virtual
address first. -/
theorem spec_C2_amended_witness :
    acceptNavigationRequest "https://example.com" =
      ([NavEffect.setVirtualUrl "example.com",
        NavEffect.setUrl "https://datlittladucky.github.io/Websites/example.com/index.html"],
        false) := by
  have h := (spec_C2_amended "https://example.com").2.1 (by decide) "example.com".data
    (by decide) (by decide)
  rw [h]
  decide

/-- C3, counterexample: the synchronization removes *every* occurrence of
`".html"` (not only a suffix) — on
`{host}a.html/index.html` it produces `"a/index"`, not the claim's
`"a.html/index"` — and for a location not under the host it leaves the
virtual address unchanged rather than setting it to the empty string. -/
theorem spec_C3_counterexample :
    sync_virtual_url "old" "https://datlittladucky.github.io/Websites/a.html/index.html" =
      "a/index" ∧
    specSyncValue "https://datlittladucky.github.io/Websites/a.html/index.html" =
      "a.html/index" ∧
    ("a/index" : String) ≠ "a.html/index" ∧
    sync_virtual_url "example.com" "about:blank" = "example.com" ∧
    ("example.com" : String) ≠ "" := by
  refine ⟨by decide, by decide, by decide, by decide, by decide⟩

/-- C3, amended: if the completed location lies under the static host, the
virtual address becomes the location with every occurrence of the host
string removed, then every occurrence of `".html"` removed, then surrounding
slashes stripped (on ordinary host locations, whose tail contains `".html"`
only as a suffix, this agrees with the claim); otherwise the virtual address
is left unchanged. -/
theorem spec_C3_amended (v u : String) :
    (pyStartswith u GITHUB_BASE = false → sync_virtual_url v u = v) ∧
    (pyStartswith u GITHUB_BASE = true →
      sync_virtual_url v u =
        (pyStripSlash (removeAll ".html".data (removeAll GITHUB_BASE.data u.data))).asString) ∧
    sync_virtual_url v (GITHUB_BASE ++ "example.com/foo/bar.html") = "example.com/foo/bar" := by
  refine ⟨?_, ?_, ?_⟩
  · intro h
    unfold sync_virtual_url
    rw [if_neg (by simp [h])]
  · intro h
    unfold sync_virtual_url
    rw [if_pos h]
  · unfold sync_virtual_url
    rw [if_pos (pyStartswith_append _ _)]
    decide

/-- Witness for C3 (amended): a location not under the host leaves the
virtual address untouched. -/
theorem spec_C3_amended_witness : sync_virtual_url "keep" "x" = "keep" :=
  (spec_C3_amended "keep" "x").1 (by decide)

/-- C5, counterexample: `parse_input` strips `"http://"` anywhere in the
input, not only as a leading scheme: on `"ahttp://b"` (which has no leading
scheme) it yields `("ab", "")`, whereas stripping only a leading scheme
yields `("ahttp:", "/b")`. -/
theorem spec_C5_counterexample :
    parse_input "ahttp://b" = ("ab", "") ∧
    parseSpecLeading "ahttp://b" = ("ahttp:", "/b") ∧
    (("ab", "") : String × String) ≠ ("ahttp:", "/b") := by
  refine ⟨by decide, by decide, by decide⟩

/-- C5, amended: `parse_input` removes every occurrence of `http://` and then
of `https://` anywhere in the input, strips surrounding slashes, and splits
at the first slash of the result: the domain contains no slash, and domain
and subpath rejoined with a slash (when the subpath is non-empty) reproduce
the stripped string exactly, so the rest of the path is retained verbatim;
as a pure function it is deterministic with no side effects. -/
theorem spec_C5_amended (s : String) :
    '/' ∉ (parseL s.data).1 ∧
    ((parseL s.data).2 = [] → (parseL s.data).1 =
      pyStripSlash (removeAll "https://".data (removeAll "http://".data s.data))) ∧
    ((parseL s.data).2 ≠ [] →
      (parseL s.data).1 ++ '/' :: (parseL s.data).2 =
        pyStripSlash (removeAll "https://".data (removeAll "http://".data s.data))) := by
  have hlast : (pyStripSlash (removeAll "https://".data
      (removeAll "http://".data s.data))).getLast? ≠ some '/' := pyStripSlash_getLast
  have hj := rejoin_splitFirstSlash hlast
  unfold rejoinL at hj
  have hj2 : (if (parseL s.data).2 = [] then (parseL s.data).1
      else (parseL s.data).1 ++ '/' :: (parseL s.data).2) =
      pyStripSlash (removeAll "https://".data (removeAll "http://".data s.data)) := hj
  refine ⟨splitFirstSlash_fst_no_slash _, ?_, ?_⟩
  · intro h2
    rw [if_pos h2] at hj2
    exact hj2
  · intro h2
    rw [if_neg h2] at hj2
    exact hj2

/-- Witness for C5 (amended) at `"a.com/x/y"`. -/
theorem spec_C5_amended_witness :
    (parseL "a.com/x/y".data).1 ++ '/' :: (parseL "a.com/x/y".data).2 =
      pyStripSlash (removeAll "https://".data (removeAll "http://".data "a.com/x/y".data)) :=
  (spec_C5_amended "a.com/x/y").2.2 (by decide)

/-- C6: after a load completes, a failed load is replaced by the generic
error document; on success the queried title triggers the "Page not found"
error document exactly when it contains the substring `"404"`, and otherwise
the content is not replaced. -/
theorem spec_C6_notfound (success : Bool) (title : Option String) (content : Location) :
    (success = false →
      check_load_success success title content = Location.errorDoc "Page failed to load") ∧
    (success = true →
      (∀ t, title = some t → hasSubstr "404".data t.data = true →
        check_load_success success title content = Location.errorDoc "Page not found") ∧
      ((∀ t, title = some t → hasSubstr "404".data t.data = false) →
        check_load_success success title content = content)) := by
  constructor
  · intro h
    subst h
    rfl
  · intro h
    subst h
    constructor
    · intro t ht hhas
      subst ht
      have hne : t.data.isEmpty = false := by
        cases hd : t.data with
        | nil =>
          rw [hd] at hhas
          exact absurd hhas (by decide)
        | cons a b => rfl
      simp [check_load_success, check_title_for_404, hne, hhas]
    · intro hno
      cases title with
      | none => rfl
      | some t =>
        have h2 := hno t rfl
        simp [check_load_success, check_title_for_404, h2]

/-- Witness for C6: a page titled `"404 Not Found"` is replaced by the
not-found error document. -/
theorem spec_C6_notfound_witness :
    check_load_success true (some "404 Not Found") (Location.url START_PAGE) =
      Location.errorDoc "Page not found" :=
  ((spec_C6_notfound true (some "404 Not Found") (Location.url START_PAGE)).2 rfl).1
    "404 Not Found" rfl (by decide)

/-- C7, counterexample: the address bar lowercases (and whitespace-strips)
the entered text before the special-case comparison: `"Start"` is not one of
the literal tokens and does not validate, so the claim prescribes the
"invalid domain format" error document, yet the code loads the start page. -/
theorem spec_C7_counterexample :
    ("Start" : String) ≠ "start" ∧ ("Start" : String) ≠ "websites/start" ∧
    validate_input "Start" = false ∧
    load_page "Start" = LoadPageResult.loadStart ∧
    applySubmit "Start" initialView =
      { initialView with location := Location.url START_PAGE } ∧
    load_page "Start" ≠ LoadPageResult.invalid := by
  refine ⟨by decide, by decide, by decide, by decide, by decide, by decide⟩

/-- C7, amended: on address-bar submission the entered text is first stripped
of surrounding whitespace; if its lowercase form is `"start"` or
`"websites/start"` the view loads the start page (virtual address untouched);
otherwise if the stripped text validates, the virtual address is set and the
rewritten target loaded; otherwise the view shows the "Invalid domain
format" error document and the virtual address is unchanged. -/
theorem spec_C7_amended (text : String) (s : ViewState) :
    (pyLower (pyStripSpace text.data) = "start".data ∨
        pyLower (pyStripSpace text.data) = "websites/start".data →
      load_page text = LoadPageResult.loadStart ∧
        applySubmit text s = { s with location := Location.url START_PAGE }) ∧
    (¬(pyLower (pyStripSpace text.data) = "start".data ∨
        pyLower (pyStripSpace text.data) = "websites/start".data) →
      validateL (pyStripSpace text.data) = true →
      load_page text = LoadPageResult.load
          (rewrittenTarget (parseL (pyStripSpace text.data)).1.asString
            (parseL (pyStripSpace text.data)).2.asString)
          (virtualAddress (parseL (pyStripSpace text.data)).1.asString
            (parseL (pyStripSpace text.data)).2.asString)
          (parseL (pyStripSpace text.data)).1.asString ∧
        applySubmit text s =
          { location := Location.url
              (rewrittenTarget (parseL (pyStripSpace text.data)).1.asString
                (parseL (pyStripSpace text.data)).2.asString),
            virtualUrl := virtualAddress (parseL (pyStripSpace text.data)).1.asString
              (parseL (pyStripSpace text.data)).2.asString }) ∧
    (¬(pyLower (pyStripSpace text.data) = "start".data ∨
        pyLower (pyStripSpace text.data) = "websites/start".data) →
      validateL (pyStripSpace text.data) = false →
      load_page text = LoadPageResult.invalid ∧
        applySubmit text s = { s with location := Location.errorDoc "Invalid domain format" }) := by
  refine ⟨?_, ?_, ?_⟩
  · intro h
    have hl : load_page text = LoadPageResult.loadStart := by
      unfold load_page
      rw [if_pos h]
    exact ⟨hl, by simp [applySubmit, hl]⟩
  · intro h hv
    have hl : load_page text = LoadPageResult.load
        (rewrittenTarget (parseL (pyStripSpace text.data)).1.asString
          (parseL (pyStripSpace text.data)).2.asString)
        (virtualAddress (parseL (pyStripSpace text.data)).1.asString
          (parseL (pyStripSpace text.data)).2.asString)
        (parseL (pyStripSpace text.data)).1.asString := by
      unfold load_page
      rw [if_neg h, if_pos hv]
    exact ⟨hl, by simp [applySubmit, hl]⟩
  · intro h hv
    have hl : load_page text = LoadPageResult.invalid := by
      unfold load_page
      rw [if_neg h, if_neg (by simp [hv])]
    exact ⟨hl, by simp [applySubmit, hl]⟩

/-- Witness for C7 (amended): `"not a domain"` fails validation, the view
shows the invalid-domain error document, the virtual address is unchanged. -/
theorem spec_C7_amended_witness :
    load_page "not a domain" = LoadPageResult.invalid ∧
      applySubmit "not a domain" initialView =
        { initialView with location := Location.errorDoc "Invalid domain format" } :=
  (spec_C7_amended "not a domain" initialView).2.2 (by decide) (by decide)

/-- C8: scenario A (`"example.com"`), scenario B (`"example.com/foo/bar"`),
the same rewriting on an intercepted navigation, and the general rewritten
target template. -/
theorem spec_C8_scenarios :
    load_page "example.com" = LoadPageResult.load
      "https://datlittladucky.github.io/Websites/example.com/index.html" "example.com"
      "example.com" ∧
    load_page "example.com/foo/bar" = LoadPageResult.load
      "https://datlittladucky.github.io/Websites/example.com/foo/bar.html"
      "example.com/foo/bar" "example.com" ∧
    acceptNavigationRequest "https://example.com/foo/bar" =
      ([NavEffect.setVirtualUrl "example.com/foo/bar",
        NavEffect.setUrl "https://datlittladucky.github.io/Websites/example.com/foo/bar.html"],
        false) ∧
    (∀ d p : String, rewrittenTarget d p =
      if p ≠ "" then GITHUB_BASE ++ d ++ "/" ++ p ++ ".html"
      else GITHUB_BASE ++ d ++ "/index.html") := by
  refine ⟨by decide, by decide, by decide, fun d p => rfl⟩

/-- C10, counterexample: `"example.com//"` is accepted by `validate_input`
and contains consecutive slashes, but `parse_input` returns the empty
subpath (the trailing slashes are stripped), which does not begin with a
slash — refuting the claim's universal statement. -/
theorem spec_C10_counterexample :
    validate_input "example.com//" = true ∧
    hasSubstr "//".data "example.com//".data = true ∧
    parse_input "example.com//" = ("example.com", "") ∧
    (parseL "example.com//".data).2.head? ≠ some '/' := by
  refine ⟨by decide, by decide, by decide, by decide⟩

/-- C10, amended: there exist inputs accepted by `validate_input` that
contain consecutive slashes — e.g. `"example.com//foo"` — for which `parse`
returns a subpath beginning with a slash (`"/foo"`), so the constructed
rewritten target ends in `example.com//foo.html` (a double slash) and the
virtual address `"example.com//foo"` contains a double slash. -/
theorem spec_C10_amended :
    validate_input "example.com//foo" = true ∧
    hasSubstr "//".data "example.com//foo".data = true ∧
    parse_input "example.com//foo" = ("example.com", "/foo") ∧
    load_page "example.com//foo" = LoadPageResult.load
      "https://datlittladucky.github.io/Websites/example.com//foo.html" "example.com//foo"
      "example.com" ∧
    hasSubstr "com//foo.html".data
      "https://datlittladucky.github.io/Websites/example.com//foo.html".data = true ∧
    hasSubstr "//".data "example.com//foo".data = true := by
  refine ⟨by decide, by decide, by decide, by decide, by decide, by decide⟩
